import Mathlib

/-!
# Verification of the P2P work coordinator (`src/web/p2p/worker-coordinator.js`)

A shallow embedding of the `WorkerCoordinator` class.  The coordinator is a
single logical sequential actor (see the concurrency model in the design
document): every state transition happens in response to one inbound message
(peer event, progress, result), a local admission call, or one cooperative
step of the simulated local compute loop.  We model its mutable fields as a
`CoordState` record and each handler as a pure function from state (plus the
message) to state together with its observable outputs (fired callbacks,
dispatched messages, return values).

Conventions, mirroring the JavaScript source:
* JS `Map`s keyed by strings become association lists with `Map.set` /
  `Map.get` / `Map.delete` semantics (`setEntry`, `lookupEntry`, `eraseEntry`);
  JS `Map` insertion order (set on an existing key keeps its position) is
  preserved.
* JS numbers used as progress fractions become `ℚ` (the code only ever forms
  `done / total` and arithmetic means of such values).
* A field that the source never assigns (such as `localWorker.progress`,
  which is read at line 468 but never written) is modelled as an `Option`
  that stays `none`.
* Tasks merged from a remote queue projection (`_syncQueue`) carry only the
  projected fields `{id, prompt, status, createdBy, createdAt}`; they have no
  `options`, `chunks` or `results`.  Accessing those fields on such a task
  throws a `TypeError` in JS; we tag these tasks with `isSummary := true` and
  model the handlers' behaviour on them as leaving the state unchanged at the
  point where JS would throw.
-/

namespace Coord

/-- Chunk of a task: a contiguous step range, as built in `_distributeWork`
(`{id, taskId, startStep, endStep, workerIndex, status}`; `taskId` and
`workerIndex` are recoverable from context and elided). -/
structure Chunk where
  id : String
  startStep : Nat
  endStep : Nat
  status : String
  deriving Repr, DecidableEq

/-- A result message as consumed by `_handleResult`. -/
structure TResult where
  taskId : String
  chunkId : String
  workerId : String
  status : String
  deriving Repr, DecidableEq

/-- A task record.  `steps` is `task.options.steps`; `results` is the JS
`Map chunkId → Result` in insertion order; `isSummary` marks tasks that were
merged from a remote queue projection and therefore lack `options`, `chunks`
and `results` (see the file comment). -/
structure Task where
  id : String
  prompt : Option String
  steps : Nat
  status : String
  chunks : List Chunk
  results : List (String × TResult)
  completedAt : Option Nat
  isSummary : Bool
  deriving Repr, DecidableEq

/-- Registry entry for a peer worker (`this.workers` values). -/
structure WorkerState where
  hasGPU : Bool
  status : String
  currentChunk : Option String
  progress : ℚ
  deriving Repr, DecidableEq

/-- The local worker record set by `setLocalCapabilities`.  The source only
ever writes `{id, capabilities, status: 'idle'}`; the `progress` property is
read in `_updateWorkerProgress` but never assigned anywhere, so it is an
`Option ℚ` that remains `none` in every reachable state. -/
structure LocalWorker where
  hasGPU : Bool
  status : String
  progress : Option ℚ
  deriving Repr, DecidableEq

/-- One in-flight local compute loop: either `_processChunkLocally` over a
chunk (`chunkId = some _`, range `[startStep, endStep)`) or `_processLocally`
over the whole job (`chunkId = none`, range `[0, steps)`).  The JS loops
`await` between steps; each iteration is one `Event.localStep`. -/
structure LocalRun where
  taskId : String
  chunkId : Option String
  startStep : Nat
  endStep : Nat
  stepsDone : Nat
  deriving Repr, DecidableEq

/-- An entry of a broadcast queue projection (`_broadcastQueueUpdate` sends
`{id, prompt, status, createdBy, createdAt}`; the two provenance fields play
no role in any handler and are elided). -/
structure TaskSummary where
  id : String
  prompt : Option String
  status : String
  deriving Repr, DecidableEq

/-- The coordinator's mutable fields that the claims are about. -/
structure CoordState where
  selfId : String
  queue : List Task
  currentTask : Option Task
  workers : List (String × WorkerState)
  localWorker : Option LocalWorker
  localRuns : List LocalRun
  deriving Repr, DecidableEq

/-- Fresh coordinator (the constructor). -/
def initState (selfId : String) : CoordState :=
  ⟨selfId, [], none, [], none, []⟩

/-! ## Association-list operations with JS `Map` semantics -/

/-- `Map.get`. -/
def lookupEntry (m : List (String × WorkerState)) (k : String) : Option WorkerState :=
  match m with
  | [] => none
  | (k', v) :: rest => if k' = k then some v else lookupEntry rest k

/-- `Map.set`: replace in place if the key is present (JS `Map` keeps the
original insertion position), otherwise append. -/
def setEntry (m : List (String × WorkerState)) (k : String) (v : WorkerState) :
    List (String × WorkerState) :=
  if m.any (fun kv => kv.1 = k) then
    m.map (fun kv => if kv.1 = k then (k, v) else kv)
  else m ++ [(k, v)]

/-- In-place update of an existing entry; no-op when the key is absent
(the `if (peerWorker) {...}` pattern in the source). -/
def updateEntry (m : List (String × WorkerState)) (k : String)
    (f : WorkerState → WorkerState) : List (String × WorkerState) :=
  m.map (fun kv => if kv.1 = k then (kv.1, f kv.2) else kv)

/-- `Map.delete`. -/
def eraseEntry (m : List (String × WorkerState)) (k : String) :
    List (String × WorkerState) :=
  m.filter (fun kv => kv.1 ≠ k)

/-- `Map.set` on a task's `results` map (`this.currentTask.results.set`). -/
def resultsSet (rs : List (String × TResult)) (k : String) (r : TResult) :
    List (String × TResult) :=
  if rs.any (fun kv => kv.1 = k) then
    rs.map (fun kv => if kv.1 = k then (k, r) else kv)
  else rs ++ [(k, r)]

/-- Lookup in a task's `results` map. -/
def resultsGet (rs : List (String × TResult)) (k : String) : Option TResult :=
  match rs with
  | [] => none
  | (k', v) :: rest => if k' = k then some v else resultsGet rest k

/-- The completed-chunk count of `_handleResult`:
`Array.from(results.values()).filter(r => r.status === 'complete').length`.
Since `results` is a map keyed by chunk id, this is the number of distinct
chunk ids holding a complete result. -/
def countComplete (rs : List (String × TResult)) : Nat :=
  (rs.filter (fun kv => kv.2.status = "complete")).length

/-! ## `_distributeWork`: chunk construction (claim C2)

The loop `for (let i = 0; i < numWorkers; i++) { const startStep = i * c;
const endStep = min(startStep + c, N); if (startStep >= N) break; ... }`
with `c = Math.ceil(N / numWorkers)`. -/

/-- `Math.ceil(N / W)` on naturals (`W ≥ 1`). -/
def ceilDiv (n w : Nat) : Nat := (n + w - 1) / w

/-- The chunk ranges produced by the `_distributeWork` loop, as
`(startStep, endStep)` pairs: `rem` is the number of remaining loop
iterations, `i` the current worker index; the loop breaks at the first `i`
with `i * c ≥ N`. -/
def buildChunksFrom (n c : Nat) : Nat → Nat → List (Nat × Nat)
  | 0, _ => []
  | rem + 1, i =>
      if i * c < n then (i * c, min (i * c + c) n) :: buildChunksFrom n c rem (i + 1)
      else []

/-- All chunk ranges `_distributeWork` creates for a task of `n` total steps
and `w` candidate workers. -/
def distributeChunks (n w : Nat) : List (Nat × Nat) :=
  buildChunksFrom n (ceilDiv n w) w 0

example : distributeChunks 20 2 = [(0, 10), (10, 20)] := by decide
example : distributeChunks 10 3 = [(0, 4), (4, 8), (8, 10)] := by decide
example : distributeChunks 20 0 = [] := by decide
example : distributeChunks 5 8 = [(0, 1), (1, 2), (2, 3), (3, 4), (4, 5)] := by decide

/-! ## `_getAvailableWorkers` -/

/-- An element of the candidate list `_getAvailableWorkers` returns. -/
structure AvailWorker where
  id : String
  isLocal : Bool
  deriving Repr, DecidableEq

/-- `_getAvailableWorkers`: self first when the local worker is GPU-capable,
then every registered peer with `status === 'idle'` and `capabilities.hasGPU`,
in registry (insertion) order. -/
def getAvailableWorkers (s : CoordState) : List AvailWorker :=
  (match s.localWorker with
   | some lw => if lw.hasGPU then [⟨s.selfId, true⟩] else []
   | none => []) ++
  s.workers.filterMap (fun kv =>
    if kv.2.status = "idle" ∧ kv.2.hasGPU then some ⟨kv.1, false⟩ else none)

/-! ## `_distributeWork` (state part) -/

/-- Chunk ids are `"chunk_" ++ i`. -/
def chunkName (i : Nat) : String := "chunk_" ++ toString i

/-- The chunk objects `_distributeWork` pushes onto `task.chunks`. -/
def mkChunks (n w : Nat) : List Chunk :=
  (distributeChunks n w).enum.map
    (fun pr => ⟨chunkName pr.1, pr.2.1, pr.2.2, "pending"⟩)

/-- `_distributeWork task workers`: build the chunks, store them on the task,
mark every non-local assigned peer `working` with its `currentChunk`, and
start one local compute loop for a chunk assigned to the local candidate.
The task (already `status = 'processing'`) becomes/stays the current task. -/
def distributeWork (s : CoordState) (t : Task) (avail : List AvailWorker) :
    CoordState :=
  let n := t.steps
  let w := avail.length
  let chunks := mkChunks n w
  let t' := { t with chunks := chunks }
  let assigned : List (AvailWorker × Chunk) := chunks.enum.filterMap (fun pr =>
    match avail.get? pr.1 with
    | some aw => some (aw, pr.2)
    | none => none)
  let workers' := assigned.foldl (fun ws awc =>
    if awc.1.isLocal then ws
    else updateEntry ws awc.1.id
      (fun wst => { wst with status := "working", currentChunk := some awc.2.id }))
    s.workers
  let newRuns := assigned.filterMap (fun awc =>
    if awc.1.isLocal then
      some ⟨t.id, some awc.2.id, awc.2.startStep, awc.2.endStep, 0⟩
    else none)
  { s with currentTask := some t', workers := workers',
           localRuns := s.localRuns ++ newRuns }

/-! ## `_processNextTask` -/

/-- `_processNextTask`; the second component is the task (if any) that was
promoted from the queue head into the active slot.  For a promoted summary
task both `_distributeWork` and `_processLocally` throw a `TypeError` on
`task.options.steps` before any further mutation, leaving the freshly
promoted task stuck in the active slot. -/
def processNextTask (s : CoordState) : CoordState × Option Task :=
  match s.currentTask, s.queue with
  | some _, _ => (s, none)
  | none, [] => (s, none)
  | none, t :: rest =>
      let t1 := { t with status := "processing" }
      let s1 := { s with queue := rest, currentTask := some t1 }
      if t1.isSummary then (s1, some t1)
      else if (getAvailableWorkers s1).isEmpty then
        -- `_processLocally`: one full-range local compute loop, no chunks.
        ({ s1 with localRuns := s1.localRuns ++ [⟨t1.id, none, 0, t1.steps, 0⟩] },
         some t1)
      else (distributeWork s1 t1 (getAvailableWorkers s1), some t1)

/-! ## `addTask` -/

/-- The task object `addTask` constructs.  The id is generated from
`Date.now()` and `Math.random()`; the embedding takes it as an argument.
`options.steps || 20` maps `0` and `undefined` to the default `20`. -/
def mkTask (id : String) (prompt : Option String) (stepsOpt : Option Nat) :
    Task :=
  let steps := match stepsOpt with
    | none => 20
    | some 0 => 20
    | some n => n
  ⟨id, prompt, steps, "pending", [], [], none, false⟩

/-- `addTask`: append the new task, broadcast the queue projection (an
observable output, see `broadcastProjection`), run `_processNextTask`, and
return the task id.  There is no validation of any argument.  Outputs:
(state, returned id, promoted task). -/
def addTask (s : CoordState) (id : String) (prompt : Option String)
    (stepsOpt : Option Nat) : CoordState × String × Option Task :=
  let t := mkTask id prompt stepsOpt
  let s1 := { s with queue := s.queue ++ [t] }
  let (s2, promoted) := processNextTask s1
  (s2, id, promoted)

/-- The projection `_broadcastQueueUpdate` sends on every local admission. -/
def broadcastProjection (s : CoordState) : List TaskSummary :=
  s.queue.map (fun t => ⟨t.id, t.prompt, t.status⟩)

/-! ## `_completeTask` and `_handleResult` -/

/-- `_completeTask`: stamp the current task complete, fire `onComplete` with
it, clear the active slot and pull the next queued job.  Outputs:
(state, task passed to `onComplete`, promoted task). -/
def completeTask (s : CoordState) (now : Nat) :
    CoordState × Option Task × Option Task :=
  match s.currentTask with
  | none => (s, none, none)
  | some t =>
      let t' := { t with status := "complete", completedAt := some now }
      let (s2, promoted) := processNextTask { s with currentTask := none }
      (s2, some t', promoted)

/-- `_handleResult`: drop the result unless it names the current task; record
it in the results map (last write wins per chunk id); complete the task the
moment the number of distinct chunk ids with a complete result equals the
chunk count.  On a summary current task JS throws on `results.set`
(no `results` map), modelled as leaving the state unchanged.  Outputs:
(state, task passed to `onComplete` if completion fired, promoted task). -/
def handleResult (s : CoordState) (r : TResult) (now : Nat) :
    CoordState × Option Task × Option Task :=
  match s.currentTask with
  | none => (s, none, none)
  | some t =>
      if r.taskId = t.id then
        if t.isSummary then (s, none, none)
        else
          let t' := { t with results := resultsSet t.results r.chunkId r }
          let s1 := { s with currentTask := some t' }
          if countComplete t'.results = t'.chunks.length then completeTask s1 now
          else (s1, none, none)
      else (s, none, none)

/-! ## `_syncQueue` -/

/-- The task object a projection entry turns into when `_syncQueue` pushes it:
only the projected fields exist (`isSummary := true`, see the file comment). -/
def summaryToTask (x : TaskSummary) : Task :=
  ⟨x.id, x.prompt, 0, x.status, [], [], none, true⟩

/-- One iteration of the `_syncQueue` merge loop:
`if (!this.queue.find(t => t.id === task.id)) this.queue.push(task)`. -/
def mergeStep (q : List Task) (x : TaskSummary) : List Task :=
  if q.any (fun t => t.id = x.id) then q else q ++ [summaryToTask x]

/-- `_syncQueue`: add-only merge — push each projected task whose id is not
already in the local pending queue.  The active-job slot is not consulted,
and `_processNextTask` is not invoked. -/
def syncQueue (s : CoordState) (proj : List TaskSummary) : CoordState :=
  { s with queue := proj.foldl mergeStep s.queue }

/-! ## `_updateWorkerProgress` -/

/-- A progress message from a peer (`{taskId, chunkId, progress, workerId}`;
only `taskId` and `progress` are read by the handler). -/
structure ProgressMsg where
  taskId : String
  progress : ℚ
  deriving Repr, DecidableEq

/-- The aggregate report handed to the `onProgress` subscriber. -/
structure AggReport where
  taskId : String
  progress : ℚ
  deriving Repr, DecidableEq

/-- Mean of a list of rationals, `0` for the empty list (the
`allProgress.length > 0 ? sum / length : 0` expression). -/
def meanOrZero (l : List ℚ) : ℚ :=
  if l.length = 0 then 0 else (l.foldl (fun a b => a + b) 0) / (l.length : ℚ)

/-- The progress values aggregated by `_updateWorkerProgress`: the stored
progress of every peer whose registry status is `'working'`, plus
`localWorker.progress` when that property is defined (it never is: the
coordinator never assigns it). -/
def aggregatedValues (s : CoordState) : List ℚ :=
  (s.workers.filterMap (fun kv =>
    if kv.2.status = "working" then some kv.2.progress else none)) ++
  (match s.localWorker with
   | some lw => match lw.progress with
     | some p => [p]
     | none => []
   | none => [])

/-- `_updateWorkerProgress`: store the reported progress on the sending
peer's registry entry (if registered), then — provided a current task
exists — report the unweighted mean of `aggregatedValues` to the
`onProgress` subscriber, tagged with the incoming message's `taskId`. -/
def updateWorkerProgress (s : CoordState) (peerId : String) (m : ProgressMsg) :
    CoordState × Option AggReport :=
  let s' := { s with
    workers := updateEntry s.workers peerId (fun w => { w with progress := m.progress }) }
  match s'.currentTask with
  | none => (s', none)
  | some _ => (s', some ⟨m.taskId, meanOrZero (aggregatedValues s')⟩)

/-! ## `_handleWorkerDisconnect` -/

/-- The single reassignment attempt a departure can trigger. -/
inductive Reassign where
  /-- `network.broadcastTask(..., [newWorker.id])`: a targeted dispatch of the
  chunk to the named worker. -/
  | dispatch (workerId : String) (chunkId : String)
  /-- `_processChunkLocally({...currentTask, chunk})`: local fallback. -/
  | runLocal (chunkId : String)
  /-- No reassignment was attempted. -/
  | nothing
  deriving Repr, DecidableEq

/-- `_handleWorkerDisconnect`: if the departing peer is registered, holds a
`currentChunk`, a task is active, and that chunk belongs to the active task
and is not complete, mark the chunk `pending` and attempt exactly one
reassignment — to the first entry of `_getAvailableWorkers()` (computed
before the departing entry is deleted), or locally when that list is empty.
The departing peer's registry entry is deleted in every case. -/
def handleWorkerDisconnect (s : CoordState) (peerId : String) :
    CoordState × Reassign :=
  let deleted := fun (st : CoordState) =>
    { st with workers := eraseEntry st.workers peerId }
  match lookupEntry s.workers peerId, s.currentTask with
  | some w, some t =>
      match w.currentChunk with
      | some cid =>
          match t.chunks.find? (fun c => c.id = cid) with
          | some c =>
              if c.status ≠ "complete" then
                let t' := { t with chunks := t.chunks.map (fun ch =>
                  if ch.id = cid then { ch with status := "pending" } else ch) }
                let s1 := { s with currentTask := some t' }
                match getAvailableWorkers s with
                | nw :: _ => (deleted s1, Reassign.dispatch nw.id cid)
                | [] =>
                    (deleted { s1 with localRuns :=
                        s1.localRuns ++ [⟨t.id, some cid, c.startStep, c.endStep, 0⟩] },
                     Reassign.runLocal cid)
              else (deleted s, Reassign.nothing)
          | none => (deleted s, Reassign.nothing)
      | none => (deleted s, Reassign.nothing)
  | _, _ => (deleted s, Reassign.nothing)

/-! ## Capability announcements -/

/-- The `onCapabilities` handler: insert/replace the peer's registry entry,
status `'idle'`, no chunk, progress `0`. -/
def handleCapabilities (s : CoordState) (peerId : String) (hasGPU : Bool) :
    CoordState :=
  { s with workers := setEntry s.workers peerId ⟨hasGPU, "idle", none, 0⟩ }

/-- `setLocalCapabilities`: `{id, capabilities, status: 'idle'}` — note that
no `progress` property is written. -/
def setLocalCapabilities (s : CoordState) (hasGPU : Bool) : CoordState :=
  { s with localWorker := some ⟨hasGPU, "idle", none⟩ }

/-! ## One step of a local compute loop

`_processChunkLocally` and `_processLocally` are `async` loops that `await`
between steps; each loop iteration is one `localStep` event on the run it
belongs to.  The final iteration of a chunk loop marks the chunk object
complete (visible on the current task when the loop's task is still active)
and feeds a complete result to `_handleResult`; the final iteration of a
whole-job loop stamps the job, fires `onComplete`, clears the active slot
unconditionally (`this.currentTask = null` in the closure) and pulls the next
job. -/

/-- `chunk.status = 'complete'` on the captured chunk object. -/
def markChunkComplete (t : Task) (cid : String) : Task :=
  { t with chunks := t.chunks.map (fun ch =>
      if ch.id = cid then { ch with status := "complete" } else ch) }

/-- The mutation `chunk.status = 'complete'` on the captured chunk object is
visible exactly when the run's task is still the active (non-summary) task. -/
def markIfActive (s : CoordState) (taskId cid : String) : CoordState :=
  match s.currentTask with
  | some t =>
      if t.id = taskId ∧ t.isSummary = false then
        { s with currentTask := some (markChunkComplete t cid) }
      else s
  | none => s

/-- The task object the `_processLocally` epilogue passes to `onComplete`.
When the active slot no longer holds the loop's task object, JS still fires
the callback with the stale captured object and clears the slot; the stale
object is no longer part of the state, so only the matching case carries a
completed task here. -/
def staleCompleted (s : CoordState) (taskId : String) (now : Nat) : Option Task :=
  match s.currentTask with
  | some t =>
      if t.id = taskId ∧ t.isSummary = false then
        some { t with status := "complete", completedAt := some now }
      else none
  | none => none

/-- One iteration of local run `i`.  Outputs: (state, emitted per-step
progress fraction, task passed to `onComplete` if completion fired, promoted
task). -/
def localStep (s : CoordState) (i : Nat) (now : Nat) :
    CoordState × Option ℚ × Option Task × Option Task :=
  match s.localRuns[i]? with
  | none => (s, none, none, none)
  | some run =>
      let total := run.endStep - run.startStep
      if run.stepsDone < total then
        let done := run.stepsDone + 1
        let prog : ℚ := (done : ℚ) / (total : ℚ)
        let s1 := { s with localRuns := s.localRuns.set i { run with stepsDone := done } }
        if done = total then
          match run.chunkId with
          | some cid =>
              let s2 := markIfActive s1 run.taskId cid
              let out := handleResult s2 ⟨run.taskId, cid, s.selfId, "complete"⟩ now
              (out.1, some prog, out.2.1, out.2.2)
          | none =>
              -- `_processLocally` epilogue: stamp, fire `onComplete`, clear
              -- the slot unconditionally, pull the next job.
              let (s3, promoted) := processNextTask { s1 with currentTask := none }
              (s3, some prog, staleCompleted s1 run.taskId now, promoted)
        else (s1, some prog, none, none)
      else (s, none, none, none)

/-! ## The event-step semantics -/

/-- The inbound messages and calls that drive the coordinator. -/
inductive Event where
  /-- A local `addTask` call (admission). -/
  | add (id : String) (prompt : Option String) (stepsOpt : Option Nat)
  /-- A remote queue projection (`onQueueUpdate`). -/
  | sync (proj : List TaskSummary)
  /-- A result message (`onResult`). -/
  | result (r : TResult) (now : Nat)
  /-- A peer progress message (`onProgress`). -/
  | progress (peerId : String) (m : ProgressMsg)
  /-- A peer departure (`onPeerLeave`). -/
  | disconnect (peerId : String)
  /-- A capability announcement (`onCapabilities`). -/
  | caps (peerId : String) (hasGPU : Bool)
  /-- A `setLocalCapabilities` call. -/
  | setLocal (hasGPU : Bool)
  /-- One iteration of local compute loop `i`. -/
  | localStep (i : Nat) (now : Nat)
  deriving Repr, DecidableEq

/-- One event step; the second component is the task promoted into the
active slot by this step, if any. -/
def stepP (s : CoordState) : Event → CoordState × Option Task
  | .add id prompt stepsOpt =>
      let out := addTask s id prompt stepsOpt
      (out.1, out.2.2)
  | .sync proj => (syncQueue s proj, none)
  | .result r now =>
      let out := handleResult s r now
      (out.1, out.2.2)
  | .progress peerId m => ((updateWorkerProgress s peerId m).1, none)
  | .disconnect peerId => ((handleWorkerDisconnect s peerId).1, none)
  | .caps peerId hasGPU => (handleCapabilities s peerId hasGPU, none)
  | .setLocal hasGPU => (setLocalCapabilities s hasGPU, none)
  | .localStep i now =>
      let out := localStep s i now
      (out.1, out.2.2.2)

/-- The state after an event. -/
def step (s : CoordState) (e : Event) : CoordState := (stepP s e).1

/-- Run a list of events from a state. -/
def runEvents (s : CoordState) (es : List Event) : CoordState :=
  es.foldl step s

/-- In-protocol queue projections: what honest coordinators broadcast.
`_broadcastQueueUpdate` projects the pending queue, whose entries all have
status `'pending'` (lemma `broadcastProjection_wf` below). -/
def WFProj (proj : List TaskSummary) : Prop :=
  ∀ x ∈ proj, x.status = "pending"

/-- An event is in-protocol when any projection it carries is one an honest
peer could have broadcast. -/
def WFEvent : Event → Prop
  | .sync proj => WFProj proj
  | _ => True

/-- States reachable from a fresh coordinator by in-protocol events. -/
inductive Reachable : CoordState → Prop where
  | init (selfId : String) : Reachable (initState selfId)
  | step {s : CoordState} (e : Event) (hs : Reachable s) (he : WFEvent e) :
      Reachable (step s e)

/-! ## Chunk-construction lemmas (claim C2) -/

theorem bc_length_le (n c : Nat) : ∀ rem i, (buildChunksFrom n c rem i).length ≤ rem := by
  intro rem
  induction rem with
  | zero => intro i; simp [buildChunksFrom]
  | succ k ih =>
      intro i
      simp only [buildChunksFrom]
      split
      · simpa using Nat.succ_le_succ (ih (i + 1))
      · simp

theorem bc_get? (n c : Nat) : ∀ rem i j p,
    (buildChunksFrom n c rem i).get? j = some p →
    p = ((i + j) * c, min ((i + j) * c + c) n) := by
  intro rem
  induction rem with
  | zero => intro i j p h; simp [buildChunksFrom] at h
  | succ k ih =>
      intro i j p h
      simp only [buildChunksFrom] at h
      split at h
      · match j with
        | 0 => simp at h; simp [← h]
        | j' + 1 =>
            simp only [List.get?_cons_succ] at h
            have := ih (i + 1) j' p h
            rw [this]
            have : i + 1 + j' = i + (j' + 1) := by omega
            rw [this]
      · simp at h

theorem bc_lt (n c : Nat) : ∀ rem i j,
    j < (buildChunksFrom n c rem i).length → (i + j) * c < n := by
  intro rem
  induction rem with
  | zero => intro i j h; simp [buildChunksFrom] at h
  | succ k ih =>
      intro i j h
      simp only [buildChunksFrom] at h
      split at h
      · match j with
        | 0 => simpa using ‹i * c < n›
        | j' + 1 =>
            simp only [List.length_cons, Nat.add_lt_add_iff_right] at h
            have := ih (i + 1) j' h
            have heq : i + 1 + j' = i + (j' + 1) := by omega
            rwa [heq] at this
      · simp at h

theorem bc_stop (n c : Nat) : ∀ rem i,
    (buildChunksFrom n c rem i).length < rem →
    n ≤ (i + (buildChunksFrom n c rem i).length) * c := by
  intro rem
  induction rem with
  | zero => intro i h; omega
  | succ k ih =>
      intro i h
      by_cases hlt : i * c < n
      · simp only [buildChunksFrom, if_pos hlt, List.length_cons] at h ⊢
        have := ih (i + 1) (by omega)
        have heq : i + 1 + (buildChunksFrom n c k (i + 1)).length
            = i + ((buildChunksFrom n c k (i + 1)).length + 1) := by omega
        rwa [heq] at this
      · simp only [buildChunksFrom, if_neg hlt, List.length_nil, Nat.add_zero]
        omega

/-- For `w ≥ 1`, `w` chunks of nominal size `ceil(n / w)` cover `n` steps. -/
theorem ceilDiv_mul_ge (n w : Nat) (hw : 1 ≤ w) : n ≤ w * ceilDiv n w := by
  have hmod := Nat.div_add_mod (n + w - 1) w
  have hlt : (n + w - 1) % w < w := Nat.mod_lt _ (by omega)
  simp only [ceilDiv]
  omega

theorem ceilDiv_pos (n w : Nat) (hn : 1 ≤ n) (hw : 1 ≤ w) : 1 ≤ ceilDiv n w := by
  by_contra h
  have h0 : ceilDiv n w = 0 := by omega
  have := ceilDiv_mul_ge n w hw
  rw [h0] at this
  omega

/-- The chunk list grows until its nominal extent reaches `n`. -/
theorem distributeChunks_length_mul (n w : Nat) (hw : 1 ≤ w) :
    n ≤ (distributeChunks n w).length * ceilDiv n w := by
  by_cases h : (distributeChunks n w).length < w
  · have := bc_stop n (ceilDiv n w) w 0 h
    simpa using this
  · have hlen : (distributeChunks n w).length = w := by
      have := bc_length_le n (ceilDiv n w) w 0
      simp only [distributeChunks] at h ⊢
      omega
    rw [hlen]
    exact ceilDiv_mul_ge n w hw

theorem distributeChunks_get? (n w j : Nat) (p : Nat × Nat)
    (h : (distributeChunks n w).get? j = some p) :
    p = (j * ceilDiv n w, min (j * ceilDiv n w + ceilDiv n w) n) := by
  have := bc_get? n (ceilDiv n w) w 0 j p h
  simpa using this

theorem distributeChunks_start_lt (n w j : Nat)
    (h : j < (distributeChunks n w).length) : j * ceilDiv n w < n := by
  have := bc_lt n (ceilDiv n w) w 0 j h
  simpa using this

/-- Conversely, every index whose nominal start is below `n` is present. -/
theorem distributeChunks_lt_length (n w j : Nat) (hw : 1 ≤ w)
    (h : j * ceilDiv n w < n) : j < (distributeChunks n w).length := by
  by_contra hge
  have hlen := distributeChunks_length_mul n w hw
  have : (distributeChunks n w).length * ceilDiv n w ≤ j * ceilDiv n w :=
    Nat.mul_le_mul_right _ (by omega)
  omega

theorem distributeChunks_ne_nil (n w : Nat) (hn : 1 ≤ n) (hw : 1 ≤ w) :
    distributeChunks n w ≠ [] := by
  have h0 : 0 < (distributeChunks n w).length :=
    distributeChunks_lt_length n w 0 hw (by simpa using hn)
  intro h
  rw [h] at h0
  simp at h0

/-- The chunk objects of `_distributeWork` carry exactly the computed ranges. -/
theorem mkChunks_ranges (n w : Nat) :
    (mkChunks n w).map (fun c => (c.startStep, c.endStep)) = distributeChunks n w := by
  unfold mkChunks
  rw [List.map_map]
  have h : ((fun c : Chunk => (c.startStep, c.endStep)) ∘
      (fun pr : Nat × (Nat × Nat) => Chunk.mk (chunkName pr.1) pr.2.1 pr.2.2 "pending"))
      = Prod.snd := by
    funext pr
    simp
  rw [h, List.enum_map_snd]

/-- C2, counterexample to the claim as stated: for a job of 10 steps over 3
workers the nominal chunk size is `ceil(10/3) = 4`, but the loop truncates
the final chunk at the step count, so the third chunk is `[8, 10)` of size 2
— not every constructed chunk has size `ceil(N/W)`. -/
theorem C2_counterexample :
    ceilDiv 10 3 = 4 ∧
    distributeChunks 10 3 = [(0, 4), (4, 8), (8, 10)] ∧
    ¬ (∀ p ∈ distributeChunks 10 3, p.2 - p.1 = ceilDiv 10 3) := by
  refine ⟨by decide, by decide, ?_⟩
  intro h
  have h2 := h (8, 10) (by decide)
  have h4 : ceilDiv 10 3 = 4 := by decide
  simp only at h2
  omega

/-- C2 (amended): for every job with `N ≥ 1` total steps distributed over
`W ≥ 1` candidate workers, the constructed chunks are contiguous starting at
step 0, exactly partition `[0, N)` with no gaps and no overlaps, number at
most `W` (an index whose start offset `i * ceil(N/W)` reaches `N` receives no
chunk), and each chunk has size `ceil(N/W)` except possibly the last, which
is truncated to end at `N`. -/
theorem C2_chunk_partition (n w : Nat) (hn : 1 ≤ n) (hw : 1 ≤ w) :
    (mkChunks n w).map (fun c => (c.startStep, c.endStep)) = distributeChunks n w ∧
    (distributeChunks n w).length ≤ w ∧
    distributeChunks n w ≠ [] ∧
    (∀ j p, (distributeChunks n w).get? j = some p →
        p = (j * ceilDiv n w, min (j * ceilDiv n w + ceilDiv n w) n)) ∧
    (∀ p ∈ distributeChunks n w, p.1 < p.2 ∧ p.2 ≤ n) ∧
    (∀ j p q, (distributeChunks n w).get? j = some p →
        (distributeChunks n w).get? (j + 1) = some q → p.2 = q.1) ∧
    (∀ p, (distributeChunks n w).head? = some p → p.1 = 0) ∧
    (∀ p, (distributeChunks n w).getLast? = some p → p.2 = n) ∧
    (∀ s, s < n →
        ∃! j, ∃ p, (distributeChunks n w).get? j = some p ∧ p.1 ≤ s ∧ s < p.2) ∧
    (∀ j p, (distributeChunks n w).get? j = some p →
        j + 1 < (distributeChunks n w).length → p.2 - p.1 = ceilDiv n w) := by
  have hc : 1 ≤ ceilDiv n w := ceilDiv_pos n w hn hw
  have hcov := distributeChunks_length_mul n w hw
  have hlen_le : (distributeChunks n w).length ≤ w := by
    have := bc_length_le n (ceilDiv n w) w 0
    simpa [distributeChunks] using this
  refine ⟨mkChunks_ranges n w, hlen_le, distributeChunks_ne_nil n w hn hw,
    fun j p h => distributeChunks_get? n w j p h, ?_, ?_, ?_, ?_, ?_, ?_⟩
  · -- every chunk is a nonempty subrange of [0, n)
    intro p hp
    obtain ⟨j, hj⟩ := List.mem_iff_get?.mp hp
    have hchar := distributeChunks_get? n w j p hj
    have hjlt : j < (distributeChunks n w).length := (List.get?_eq_some.mp hj).1
    have hstart := distributeChunks_start_lt n w j hjlt
    rw [hchar]
    constructor
    · exact lt_min (by omega) hstart
    · exact min_le_right _ _
  · -- contiguity: each chunk ends where the next begins
    intro j p q hp hq
    have hcp := distributeChunks_get? n w j p hp
    have hcq := distributeChunks_get? n w (j + 1) q hq
    have hlt : j + 1 < (distributeChunks n w).length := (List.get?_eq_some.mp hq).1
    have hnext := distributeChunks_start_lt n w (j + 1) hlt
    have hmul : (j + 1) * ceilDiv n w = j * ceilDiv n w + ceilDiv n w :=
      Nat.succ_mul j (ceilDiv n w)
    rw [hcp, hcq]
    simp only
    omega
  · -- the first chunk starts at step 0
    intro p hp
    cases hL : distributeChunks n w with
    | nil => rw [hL] at hp; simp at hp
    | cons a t =>
        rw [hL] at hp
        simp only [List.head?_cons, Option.some_inj] at hp
        have h0 : (distributeChunks n w).get? 0 = some a := by rw [hL]; rfl
        have hchar := distributeChunks_get? n w 0 a h0
        rw [hp] at hchar
        rw [hchar]
        simp
  · -- the last chunk ends at n
    intro p hp
    rw [List.getLast?_eq_getElem?, ← List.get?_eq_getElem?] at hp
    have hchar := distributeChunks_get? n w _ p hp
    have hlt : (distributeChunks n w).length - 1 < (distributeChunks n w).length :=
      (List.get?_eq_some.mp hp).1
    obtain ⟨m, hm⟩ : ∃ m, (distributeChunks n w).length = m + 1 :=
      ⟨(distributeChunks n w).length - 1, by omega⟩
    rw [hm] at hchar hcov
    simp only [Nat.add_sub_cancel] at hchar
    rw [Nat.succ_mul] at hcov
    rw [hchar]
    show min (m * ceilDiv n w + ceilDiv n w) n = n
    omega
  · -- exact partition: every step s < n lies in exactly one chunk
    intro s hs
    have hdm := Nat.div_add_mod s (ceilDiv n w)
    have hmlt : s % ceilDiv n w < ceilDiv n w := Nat.mod_lt _ (by omega)
    have hcomm : ceilDiv n w * (s / ceilDiv n w) = s / ceilDiv n w * ceilDiv n w :=
      Nat.mul_comm _ _
    have hstart : s / ceilDiv n w * ceilDiv n w ≤ s := by omega
    have hjlt : s / ceilDiv n w < (distributeChunks n w).length :=
      distributeChunks_lt_length n w _ hw (by omega)
    refine ⟨s / ceilDiv n w, ⟨(distributeChunks n w).get ⟨_, hjlt⟩,
      List.get?_eq_get hjlt, ?_⟩, ?_⟩
    · have hchar := distributeChunks_get? n w _ _ (List.get?_eq_get hjlt)
      rw [hchar]
      exact ⟨hstart, lt_min (by omega) hs⟩
    · intro j hj
      obtain ⟨p, hp, hps, hsp⟩ := hj
      have hchar := distributeChunks_get? n w j p hp
      rw [hchar] at hps hsp
      simp only at hps hsp
      have h2 : s < (j + 1) * ceilDiv n w := by
        have hmul : (j + 1) * ceilDiv n w = j * ceilDiv n w + ceilDiv n w :=
          Nat.succ_mul j (ceilDiv n w)
        have hsp' : s < j * ceilDiv n w + ceilDiv n w := lt_of_lt_of_le hsp (min_le_left _ _)
        omega
      exact (Nat.div_eq_of_lt_le hps h2).symm
  · -- all chunks except the last have the nominal size
    intro j p hp hjlt
    have hchar := distributeChunks_get? n w j p hp
    have hnext := distributeChunks_start_lt n w (j + 1) hjlt
    have hmul : (j + 1) * ceilDiv n w = j * ceilDiv n w + ceilDiv n w :=
      Nat.succ_mul j (ceilDiv n w)
    rw [hchar]
    simp only
    omega

/-- Closed instance of C2 (amended): a 20-step job over 2 candidates yields
at most 2 chunks. -/
theorem C2_chunk_partition_witness : (distributeChunks 20 2).length ≤ 2 :=
  (C2_chunk_partition 20 2 (by decide) (by decide)).2.1

/-! ## Queue-merge lemmas (claims C7, C10) -/

theorem mergeFold_addOnly (proj : List TaskSummary) :
    ∀ q0 : List Task, ∃ app, proj.foldl mergeStep q0 = q0 ++ app := by
  induction proj with
  | nil => intro q0; exact ⟨[], by simp⟩
  | cons x xs ih =>
      intro q0
      simp only [List.foldl_cons]
      by_cases hany : (q0.any fun t => t.id = x.id) = true
      · rw [show mergeStep q0 x = q0 from by simp [mergeStep, hany]]
        exact ih q0
      · rw [show mergeStep q0 x = q0 ++ [summaryToTask x] from by simp [mergeStep, hany]]
        obtain ⟨app, happ⟩ := ih (q0 ++ [summaryToTask x])
        exact ⟨summaryToTask x :: app, by simpa using happ⟩

theorem mergeFold_mem (proj : List TaskSummary) :
    ∀ (q0 : List Task) (t : Task), t ∈ q0 → t ∈ proj.foldl mergeStep q0 := by
  intro q0 t ht
  obtain ⟨app, happ⟩ := mergeFold_addOnly proj q0
  rw [happ]
  exact List.mem_append_left _ ht

theorem mergeFold_hasId (proj : List TaskSummary) :
    ∀ (q0 : List Task) (x : TaskSummary), x ∈ proj →
    ∃ t ∈ proj.foldl mergeStep q0, t.id = x.id := by
  induction proj with
  | nil => intro q0 x hx; simp at hx
  | cons y ys ih =>
      intro q0 x hx
      simp only [List.foldl_cons]
      rcases List.mem_cons.mp hx with hxy | hxs
      · subst hxy
        by_cases hany : q0.any (fun t => t.id = x.id)
        · obtain ⟨t, ht, hid⟩ := List.any_eq_true.mp hany
          refine ⟨t, mergeFold_mem ys _ t ?_, by simpa using hid⟩
          simpa [mergeStep, hany] using ht
        · refine ⟨summaryToTask x, mergeFold_mem ys _ _ ?_, rfl⟩
          simp [mergeStep, hany]
      · exact ih (mergeStep q0 y) x hxs

theorem mergeFold_noop (proj : List TaskSummary) :
    ∀ q0 : List Task, (∀ x ∈ proj, ∃ t ∈ q0, t.id = x.id) →
    proj.foldl mergeStep q0 = q0 := by
  induction proj with
  | nil => intro q0 _; rfl
  | cons y ys ih =>
      intro q0 h
      have hy : mergeStep q0 y = q0 := by
        obtain ⟨t, ht, hid⟩ := h y (List.mem_cons_self y ys)
        have : q0.any (fun t => t.id = y.id) = true :=
          List.any_eq_true.mpr ⟨t, ht, by simpa using hid⟩
        simp [mergeStep, this]
      simp only [List.foldl_cons, hy]
      exact ih q0 (fun x hx => h x (List.mem_cons_of_mem _ hx))

/-- C7: the remote-queue merge is add-only and idempotent by job id.  On
receiving a projection, the previous local queue is untouched (it stays a
prefix, so nothing is removed and no status changes), every projected job id
is present afterwards, the active slot is not consulted, and applying the
same projection a second time is the identity — in particular no duplicate
entries arise. -/
theorem C7_sync_add_only_idempotent (s : CoordState) (proj : List TaskSummary) :
    (∃ app, (syncQueue s proj).queue = s.queue ++ app) ∧
    (∀ t ∈ s.queue, t ∈ (syncQueue s proj).queue) ∧
    (∀ x ∈ proj, ∃ t ∈ (syncQueue s proj).queue, t.id = x.id) ∧
    (syncQueue s proj).currentTask = s.currentTask ∧
    syncQueue (syncQueue s proj) proj = syncQueue s proj := by
  refine ⟨mergeFold_addOnly proj s.queue, mergeFold_mem proj s.queue,
    fun x hx => mergeFold_hasId proj s.queue x hx, rfl, ?_⟩
  have h := mergeFold_noop proj ((syncQueue s proj).queue)
    (fun x hx => mergeFold_hasId proj s.queue x hx)
  show { syncQueue s proj with
      queue := proj.foldl mergeStep (syncQueue s proj).queue } = syncQueue s proj
  rw [h]

/-- Closed instance of C7's idempotence at a concrete state and projection. -/
theorem C7_sync_add_only_idempotent_witness :
    syncQueue (syncQueue (initState "me") [⟨"a", some "p", "pending"⟩])
        [⟨"a", some "p", "pending"⟩]
      = syncQueue (initState "me") [⟨"a", some "p", "pending"⟩] :=
  (C7_sync_add_only_idempotent (initState "me") [⟨"a", some "p", "pending"⟩]).2.2.2.2

/-- C10: the `_syncQueue` membership test looks only at the pending queue,
so a projection carrying the id of the currently processing job (which was
shifted out of the pending queue on promotion) appends that id again: after
the merge the same job id is present both as the active job and as a pending
queue entry. -/
theorem C10_active_id_readded (s : CoordState) (t : Task) (proj : List TaskSummary)
    (x : TaskSummary) (hcur : s.currentTask = some t) (hx : x ∈ proj)
    (hid : x.id = t.id) :
    (syncQueue s proj).currentTask = some t ∧
    ∃ u ∈ (syncQueue s proj).queue, u.id = t.id := by
  refine ⟨by rw [← hcur]; rfl, ?_⟩
  obtain ⟨u, hu, huid⟩ := mergeFold_hasId proj s.queue x hx
  exact ⟨u, hu, by rw [huid, hid]⟩

/-- Closed instance of C10: after admitting job `t1` (which becomes the
active job), merging a projection that still lists `t1` as pending re-adds
the id to the local queue. -/
theorem C10_active_id_readded_witness :
    (syncQueue (runEvents (initState "me") [Event.add "t1" (some "p") (some 20)])
        [⟨"t1", some "p", "pending"⟩]).currentTask
      = some ⟨"t1", some "p", 20, "processing", [], [], none, false⟩ ∧
    ∃ u ∈ (syncQueue (runEvents (initState "me") [Event.add "t1" (some "p") (some 20)])
        [⟨"t1", some "p", "pending"⟩]).queue,
      u.id = (⟨"t1", some "p", 20, "processing", [], [], none, false⟩ : Task).id :=
  C10_active_id_readded _ _ _ ⟨"t1", some "p", "pending"⟩ (by decide) (by decide) rfl

/-! ## Result-aggregation lemmas (claim C1) -/

theorem resultsGet_any (k : String) (r0 : TResult) :
    ∀ rs : List (String × TResult), resultsGet rs k = some r0 →
    (rs.any fun kv => kv.1 = k) = true := by
  intro rs
  induction rs with
  | nil => intro h; simp [resultsGet] at h
  | cons kv rest ih =>
      obtain ⟨k', v⟩ := kv
      intro h
      by_cases hk : k' = k
      · simp [hk]
      · simp only [resultsGet, if_neg hk] at h
        simpa [hk] using ih h

theorem countComplete_cons (kv : String × TResult) (rest : List (String × TResult)) :
    countComplete (kv :: rest)
      = (if kv.2.status = "complete" then 1 else 0) + countComplete rest := by
  by_cases h : kv.2.status = "complete"
  · simp [countComplete, List.filter_cons, h]
    omega
  · simp [countComplete, List.filter_cons, h]

/-- Replacing entries of an absent key is the identity. -/
theorem map_replace_absent (k : String) (r : TResult) :
    ∀ rs : List (String × TResult), (∀ kv ∈ rs, kv.1 ≠ k) →
    rs.map (fun kv => if kv.1 = k then (k, r) else kv) = rs := by
  intro rs
  induction rs with
  | nil => intro _; rfl
  | cons kv rest ih =>
      intro h
      have hk : kv.1 ≠ k := h kv (List.mem_cons_self _ _)
      simp only [List.map_cons, if_neg hk]
      rw [ih (fun kv' hkv' => h kv' (List.mem_cons_of_mem _ hkv'))]

/-- Overwriting an already-complete chunk's result with another complete
result does not change the number of distinct complete chunk ids (keys
assumed distinct, as they are for any results map built by `resultsSet`). -/
theorem countComplete_set_complete (k : String) (r r0 : TResult)
    (hr : r.status = "complete") (h0 : r0.status = "complete") :
    ∀ rs : List (String × TResult), (rs.map Prod.fst).Nodup →
    resultsGet rs k = some r0 →
    countComplete (resultsSet rs k r) = countComplete rs := by
  intro rs
  induction rs with
  | nil => intro _ hget; simp [resultsGet] at hget
  | cons kv rest ih =>
      obtain ⟨k', v⟩ := kv
      intro hnd hget
      have hany := resultsGet_any k r0 _ hget
      simp only [resultsSet, hany, if_pos]
      simp only [List.map_cons]
      simp only [List.map_cons, List.nodup_cons] at hnd
      by_cases hk : k' = k
      · subst hk
        simp only [resultsGet, if_pos] at hget
        have hget' : v = r0 := by simpa using hget
        have habs : ∀ kv ∈ rest, kv.1 ≠ k' := by
          intro kv hkv
          intro hkk
          exact hnd.1 (hkk ▸ List.mem_map_of_mem Prod.fst hkv)
        rw [if_pos rfl, map_replace_absent k' r rest habs]
        rw [countComplete_cons, countComplete_cons]
        simp [hr, hget', h0]
      · simp only [resultsGet, if_neg hk] at hget
        rw [if_neg hk]
        have hany' := resultsGet_any k r0 rest hget
        have := ih hnd.2 hget
        simp only [resultsSet, hany', if_pos] at this
        rw [countComplete_cons, countComplete_cons, this]

/-- C1: for the active job, `_handleResult` marks the job complete, stamps
the completion time and fires `onComplete` exactly when the number of
distinct chunk ids holding a complete result (after recording the incoming
one) equals the job's chunk count.  A result arriving after the job
completed (the active slot is empty or holds another job) is dropped with no
state change at all — completion is never re-fired or retracted — and a
duplicate complete result for a chunk that already holds a complete result
cannot fire completion while the job is still short of its chunk count. -/
theorem C1_completion_exact (s : CoordState) (r : TResult) (now : Nat) :
    (s.currentTask = none → handleResult s r now = (s, none, none)) ∧
    (∀ t, s.currentTask = some t → r.taskId ≠ t.id →
      handleResult s r now = (s, none, none)) ∧
    (∀ t, s.currentTask = some t → t.isSummary = false → r.taskId = t.id →
      ((handleResult s r now).2.1.isSome
          ↔ countComplete (resultsSet t.results r.chunkId r) = t.chunks.length) ∧
      (∀ ct, (handleResult s r now).2.1 = some ct →
          ct.id = t.id ∧ ct.status = "complete" ∧ ct.completedAt = some now) ∧
      (∀ r0, (t.results.map Prod.fst).Nodup →
          resultsGet t.results r.chunkId = some r0 → r0.status = "complete" →
          r.status = "complete" → countComplete t.results ≠ t.chunks.length →
          (handleResult s r now).2.1 = none)) := by
  refine ⟨fun h => by simp [handleResult, h], fun t ht hne => by simp [handleResult, ht, hne],
    fun t ht hsum hid => ⟨?_, ?_, ?_⟩⟩
  · by_cases hcond : countComplete (resultsSet t.results r.chunkId r) = t.chunks.length
    · simp [handleResult, completeTask, ht, hsum, hid, hcond]
    · simp [handleResult, ht, hsum, hid, hcond]
  · intro ct hct
    by_cases hcond : countComplete (resultsSet t.results r.chunkId r) = t.chunks.length
    · simp [handleResult, completeTask, ht, hsum, hid, hcond] at hct
      subst hct
      exact ⟨rfl, rfl, rfl⟩
    · simp [handleResult, ht, hsum, hid, hcond] at hct
  · intro r0 hnd hget h0 hr hne
    have heq := countComplete_set_complete r.chunkId r r0 hr h0 t.results hnd hget
    have hcond : countComplete (resultsSet t.results r.chunkId r) ≠ t.chunks.length := by
      rw [heq]
      exact hne
    simp [handleResult, ht, hsum, hid, hcond]

/-- Closed instance of C1: with one of two chunks already complete, the
arrival of the second complete result makes the completion condition and the
firing of `onComplete` coincide. -/
theorem C1_completion_exact_witness :
    (handleResult
        ⟨"me", [], some ⟨"t1", some "x", 2, "processing",
            [⟨"chunk_0", 0, 1, "pending"⟩, ⟨"chunk_1", 1, 2, "pending"⟩],
            [("chunk_0", ⟨"t1", "chunk_0", "p1", "complete"⟩)], none, false⟩,
          [], none, []⟩
        ⟨"t1", "chunk_1", "p2", "complete"⟩ 5).2.1.isSome
      ↔ countComplete (resultsSet
            [("chunk_0", ⟨"t1", "chunk_0", "p1", "complete"⟩)] "chunk_1"
            ⟨"t1", "chunk_1", "p2", "complete"⟩)
          = 2 :=
  ((C1_completion_exact _ _ 5).2.2 _ rfl rfl rfl).1

/-! ## Worker-departure reassignment (claim C3) -/

theorem lookupEntry_erase (k : String) :
    ∀ m : List (String × WorkerState), lookupEntry (eraseEntry m k) k = none := by
  intro m
  induction m with
  | nil => rfl
  | cons kv rest ih =>
      by_cases hk : kv.1 = k
      · simpa [eraseEntry, List.filter_cons, hk] using ih
      · simpa [eraseEntry, List.filter_cons, hk, lookupEntry] using ih

/-- C3: a departure notification for a registered worker holding a
non-complete chunk of the active job sets that chunk back to `pending` and
makes exactly one reassignment attempt: a targeted dispatch to the first
entry of the candidate list computed from the registry *before* the
departing entry is removed, or — when that list is empty — exactly one local
execution of that chunk.  In either case the departing worker's registry
entry is gone afterwards. -/
theorem C3_departure_reassignment (s : CoordState) (peerId : String)
    (w : WorkerState) (t : Task) (cid : String) (c : Chunk)
    (hw : lookupEntry s.workers peerId = some w)
    (hcid : w.currentChunk = some cid)
    (ht : s.currentTask = some t)
    (hfind : t.chunks.find? (fun ch => ch.id = cid) = some c)
    (hnc : c.status ≠ "complete") :
    (handleWorkerDisconnect s peerId).1.currentTask
        = some { t with chunks := t.chunks.map (fun ch =>
            if ch.id = cid then { ch with status := "pending" } else ch) } ∧
    lookupEntry (handleWorkerDisconnect s peerId).1.workers peerId = none ∧
    (handleWorkerDisconnect s peerId).2
        = (match getAvailableWorkers s with
           | nw :: _ => Reassign.dispatch nw.id cid
           | [] => Reassign.runLocal cid) ∧
    (getAvailableWorkers s = [] →
      (handleWorkerDisconnect s peerId).1.localRuns
        = s.localRuns ++ [⟨t.id, some cid, c.startStep, c.endStep, 0⟩]) ∧
    (getAvailableWorkers s ≠ [] →
      (handleWorkerDisconnect s peerId).1.localRuns = s.localRuns) := by
  cases hA : getAvailableWorkers s with
  | nil =>
      refine ⟨?_, ?_, ?_, ?_, ?_⟩ <;>
        simp [handleWorkerDisconnect, hw, hcid, ht, hfind, hnc, hA, lookupEntry_erase]
  | cons nw rest =>
      refine ⟨?_, ?_, ?_, ?_, ?_⟩ <;>
        simp [handleWorkerDisconnect, hw, hcid, ht, hfind, hnc, hA, lookupEntry_erase]

/-- Closed instance of C3: with both peers busy and no GPU-capable local
worker, the chunk of a departing worker is executed locally. -/
theorem C3_departure_reassignment_witness :
    (handleWorkerDisconnect (runEvents (initState "me")
        [Event.caps "p1" true, Event.caps "p2" true,
         Event.add "t1" (some "x") (some 20)]) "p1").2
      = Reassign.runLocal "chunk_0" :=
  (C3_departure_reassignment (runEvents (initState "me")
      [Event.caps "p1" true, Event.caps "p2" true,
       Event.add "t1" (some "x") (some 20)])
    "p1" ⟨true, "working", some "chunk_0", 0⟩
    ⟨"t1", some "x", 20, "processing",
      [⟨"chunk_0", 0, 10, "pending"⟩, ⟨"chunk_1", 10, 20, "pending"⟩],
      [], none, false⟩
    "chunk_0" ⟨"chunk_0", 0, 10, "pending"⟩
    (by decide) (by decide) (by decide) (by decide) (by decide)).2.2.1

/-! ## Admission (claims C4, C9, C5) -/

/-- Jobs tracked by the coordinator: the pending queue plus the active slot. -/
def jobCount (s : CoordState) : Nat :=
  s.queue.length + (match s.currentTask with | some _ => 1 | none => 0)

/-- `getAvailableWorkers` only reads the registry, the local worker record
and the self id, so updates to the other fields do not change it. -/
theorem getAvailableWorkers_update (s : CoordState) (q : List Task)
    (ct : Option Task) :
    getAvailableWorkers { s with queue := q, currentTask := ct }
      = getAvailableWorkers s := rfl

/-- C4, counterexample to the claim as stated: `addTask` performs no
validation whatsoever.  An enqueue with no prompt at all (and no caller-given
identity — the id is generated internally) synchronously returns the fresh
id and the job enters the scheduler: here the empty-prompt job lands in the
active slot and a full-range local run is started for it. -/
theorem C4_counterexample :
    (addTask (initState "me") "t1" none none).2.1 = "t1" ∧
    (addTask (initState "me") "t1" none none).1.currentTask
      = some ⟨"t1", none, 20, "processing", [], [], none, false⟩ ∧
    (addTask (initState "me") "t1" none none).1.localRuns
      = [⟨"t1", none, 0, 20, 0⟩] := by decide

/-- C4 (amended): admission never rejects.  Every `addTask` call — prompt
present or missing — constructs the task, returns its id synchronously, and
the job enters the coordinator: afterwards it sits in the pending queue or,
already promoted, in the active slot with status `processing`. -/
theorem C4_no_admission_validation (s : CoordState) (id : String)
    (prompt : Option String) (stepsOpt : Option Nat) :
    (addTask s id prompt stepsOpt).2.1 = id ∧
    ((∃ t' ∈ (addTask s id prompt stepsOpt).1.queue,
        t'.id = id ∧ t'.prompt = prompt) ∨
     (∃ t', (addTask s id prompt stepsOpt).1.currentTask = some t' ∧
        t'.id = id ∧ t'.prompt = prompt ∧ t'.status = "processing")) := by
  refine ⟨rfl, ?_⟩
  cases hcur : s.currentTask with
  | some c =>
      left
      refine ⟨mkTask id prompt stepsOpt, ?_, rfl, rfl⟩
      simp [addTask, processNextTask, hcur]
  | none =>
      cases hq : s.queue with
      | nil =>
          right
          by_cases hA : (getAvailableWorkers s).isEmpty
          · refine ⟨{ mkTask id prompt stepsOpt with status := "processing" },
              ?_, rfl, rfl, rfl⟩
            simp [addTask, processNextTask, hcur, hq, mkTask,
              getAvailableWorkers_update, hA]
          · refine ⟨{ mkTask id prompt stepsOpt with
                status := "processing",
                chunks := mkChunks (mkTask id prompt stepsOpt).steps
                  (getAvailableWorkers s).length }, ?_, rfl, rfl, rfl⟩
            simp [addTask, processNextTask, hcur, hq, mkTask,
              getAvailableWorkers_update, hA, distributeWork]
      | cons u rest =>
          left
          refine ⟨mkTask id prompt stepsOpt, ?_, rfl, rfl⟩
          by_cases hsum : u.isSummary
          · simp [addTask, processNextTask, hcur, hq, hsum]
          · by_cases hA : (getAvailableWorkers s).isEmpty
            · simp [addTask, processNextTask, hcur, hq, hsum,
                getAvailableWorkers_update, hA]
            · simp [addTask, processNextTask, hcur, hq, hsum,
                getAvailableWorkers_update, hA, distributeWork]

/-- C9, counterexample to the claim as stated: on an idle coordinator the
admitted job is promoted out of the pending queue inside the same `addTask`
call, so when the call returns the pending-queue length is unchanged (0
before, 0 after — the job sits in the active slot), not increased by 1. -/
theorem C9_counterexample :
    (initState "me").queue.length = 0 ∧
    (addTask (initState "me") "t1" (some "p") (some 20)).1.queue.length = 0 ∧
    (addTask (initState "me") "t1" (some "p") (some 20)).1.currentTask.isSome
      = true := by decide

/-- C9 (amended): a valid `addTask` call returns the freshly generated id
and admits exactly one job: the combined count of pending-queue entries plus
the active job rises by exactly 1.  The pending-queue length itself rises by
1 precisely when another job was already processing; otherwise the queue
head is promoted into the active slot within the call and the pending length
is unchanged. -/
theorem C9_enqueue_admits_one (s : CoordState) (id : String)
    (prompt : Option String) (stepsOpt : Option Nat) :
    (addTask s id prompt stepsOpt).2.1 = id ∧
    jobCount (addTask s id prompt stepsOpt).1 = jobCount s + 1 ∧
    ((addTask s id prompt stepsOpt).1.queue.length = s.queue.length + 1
      ↔ s.currentTask.isSome) := by
  refine ⟨rfl, ?_, ?_⟩ <;>
  · cases hcur : s.currentTask with
    | some c => simp [addTask, processNextTask, hcur, jobCount]
    | none =>
        cases hq : s.queue with
        | nil =>
            by_cases hA : (getAvailableWorkers s).isEmpty
            · simp [addTask, processNextTask, hcur, hq, jobCount,
                getAvailableWorkers_update, hA, mkTask]
            · simp [addTask, processNextTask, hcur, hq, jobCount,
                getAvailableWorkers_update, hA, mkTask, distributeWork]
        | cons u rest =>
            by_cases hsum : u.isSummary
            · simp [addTask, processNextTask, hcur, hq, hsum, jobCount]
            · by_cases hA : (getAvailableWorkers s).isEmpty
              · simp [addTask, processNextTask, hcur, hq, hsum, jobCount,
                  getAvailableWorkers_update, hA]
              · simp [addTask, processNextTask, hcur, hq, hsum, jobCount,
                  getAvailableWorkers_update, hA, distributeWork]

/-- C5, counterexample to the claim as stated: when the candidate set is
empty the job is handed to `_processLocally`, which runs the whole step
range directly and never constructs a chunk object — the job's chunk list
stays empty, so it is not true that "exactly one chunk covering `[0, N)` is
created". -/
theorem C5_counterexample :
    ((addTask (initState "me") "t1" (some "p") (some 20)).1.currentTask.map
      (fun t => t.chunks.length)) = some 0 ∧
    some (0 : Nat) ≠ some 1 := by decide

/-- C5 (amended): a job promoted while the candidate worker set is empty
(in particular even when a local worker exists but its GPU flag is false) is
executed on the local worker as one whole-range local run over `[0, steps)`;
no chunk object is created (the chunk list is untouched) and nothing is
dispatched to peers. -/
theorem C5_local_whole_job (s : CoordState) (t : Task) (rest : List Task)
    (hcur : s.currentTask = none) (hq : s.queue = t :: rest)
    (hsum : t.isSummary = false)
    (havail : getAvailableWorkers s = []) :
    processNextTask s
      = ({ s with
            queue := rest,
            currentTask := some { t with status := "processing" },
            localRuns := s.localRuns ++ [⟨t.id, none, 0, t.steps, 0⟩] },
         some { t with status := "processing" }) := by
  have hA : (getAvailableWorkers s).isEmpty := by rw [havail]; rfl
  simp [processNextTask, hcur, hq, hsum, getAvailableWorkers_update, hA]

/-- Closed instance of C5 (amended): a queued 20-step job on a coordinator
with no workers at all is promoted into a single local run over `[0, 20)`. -/
theorem C5_local_whole_job_witness :
    processNextTask
        ⟨"me", [⟨"t1", some "p", 20, "pending", [], [], none, false⟩],
          none, [], none, []⟩
      = (⟨"me", [], some ⟨"t1", some "p", 20, "processing", [], [], none, false⟩,
          [], none, [⟨"t1", none, 0, 20, 0⟩]⟩,
         some ⟨"t1", some "p", 20, "processing", [], [], none, false⟩) :=
  C5_local_whole_job
    ⟨"me", [⟨"t1", some "p", 20, "pending", [], [], none, false⟩], none, [], none, []⟩
    _ _ rfl rfl rfl rfl

/-! ## Progress aggregation (claim C6) -/

/-- The local worker's "last reported progress" while it is actively
computing part of the current job: its in-flight run for the active task has
emitted `stepsDone / size` as its latest per-step progress broadcast.
`none` when the local worker is not actively computing for the current job.
(This is the quantity the claim's "(local worker included if active)"
refers to; the registry itself never stores a local progress value.) -/
def localActiveProgress (s : CoordState) : Option ℚ :=
  match s.currentTask with
  | some t =>
      match s.localRuns.find? (fun r0 =>
          r0.taskId = t.id ∧ 0 < r0.stepsDone ∧
          r0.stepsDone < r0.endStep - r0.startStep) with
      | some r0 => some ((r0.stepsDone : ℚ) / ((r0.endStep - r0.startStep : Nat) : ℚ))
      | none => none
  | none => none

/-- The aggregate the claim describes: the unweighted arithmetic mean of the
last reported progress of every worker currently in status `working`, the
local worker included if active. -/
def claimAggregate (s : CoordState) : ℚ :=
  meanOrZero
    ((s.workers.filterMap (fun kv =>
        if kv.2.status = "working" then some kv.2.progress else none)) ++
     (localActiveProgress s).toList)

/-- C6, counterexample to the claim as stated: reachable state in which the
local worker is actively computing chunk `[0,10)` of the current job and has
last reported per-step progress `5/10 = 1/2`, while peers `p1`, `p2` (both
`working`) last reported `1/5` and `3/5`.  The aggregate the coordinator
reports is `(1/5 + 3/5) / 2 = 2/5`: the local worker is never included,
because the inclusion branch requires `localWorker.progress` to be defined
and the coordinator never assigns that property.  The claim's mean,
`(1/5 + 3/5 + 1/2) / 3 = 13/30`, differs. -/
theorem C6_counterexample :
    (updateWorkerProgress (runEvents (initState "me")
        [Event.setLocal true, Event.caps "p1" true, Event.caps "p2" true,
         Event.add "t1" (some "x") (some 30),
         Event.localStep 0 0, Event.localStep 0 0, Event.localStep 0 0,
         Event.localStep 0 0, Event.localStep 0 0,
         Event.progress "p2" ⟨"t1", 3/5⟩])
      "p1" ⟨"t1", 1/5⟩).2 = some ⟨"t1", 2/5⟩ ∧
    claimAggregate (updateWorkerProgress (runEvents (initState "me")
        [Event.setLocal true, Event.caps "p1" true, Event.caps "p2" true,
         Event.add "t1" (some "x") (some 30),
         Event.localStep 0 0, Event.localStep 0 0, Event.localStep 0 0,
         Event.localStep 0 0, Event.localStep 0 0,
         Event.progress "p2" ⟨"t1", 3/5⟩])
      "p1" ⟨"t1", 1/5⟩).1 = 13/30 ∧
    (2/5 : ℚ) ≠ 13/30 := by
  have hs : runEvents (initState "me")
      [Event.setLocal true, Event.caps "p1" true, Event.caps "p2" true,
       Event.add "t1" (some "x") (some 30),
       Event.localStep 0 0, Event.localStep 0 0, Event.localStep 0 0,
       Event.localStep 0 0, Event.localStep 0 0,
       Event.progress "p2" ⟨"t1", 3/5⟩]
      = ⟨"me", [],
          some ⟨"t1", some "x", 30, "processing",
            [⟨"chunk_0", 0, 10, "pending"⟩, ⟨"chunk_1", 10, 20, "pending"⟩,
             ⟨"chunk_2", 20, 30, "pending"⟩], [], none, false⟩,
          [("p1", ⟨true, "working", some "chunk_1", 0⟩),
           ("p2", ⟨true, "working", some "chunk_2", 3/5⟩)],
          some ⟨true, "idle", none⟩,
          [⟨"t1", some "chunk_0", 0, 10, 5⟩]⟩ := rfl
  rw [hs]
  refine ⟨?_, ?_, by norm_num⟩
  · simp [updateWorkerProgress, updateEntry, aggregatedValues, meanOrZero]
    norm_num
  · simp [updateWorkerProgress, updateEntry, claimAggregate,
      localActiveProgress, aggregatedValues, meanOrZero, List.find?]
    norm_num

/-- C6 (amended): the aggregate handed to the `onProgress` subscriber is the
unweighted arithmetic mean of the stored progress of the peer workers
currently in status `working` — the local worker is never included, since
its registry record never carries a progress value (the code's inclusion
test `localWorker.progress !== undefined` never succeeds). -/
theorem C6_aggregate_mean (s : CoordState) (peerId : String) (m : ProgressMsg)
    (hcur : s.currentTask.isSome = true)
    (hlp : ∀ lw, s.localWorker = some lw → lw.progress = none) :
    (updateWorkerProgress s peerId m).2
      = some ⟨m.taskId, meanOrZero
          ((updateWorkerProgress s peerId m).1.workers.filterMap (fun kv =>
            if kv.2.status = "working" then some kv.2.progress else none))⟩ := by
  obtain ⟨t, ht⟩ := Option.isSome_iff_exists.mp hcur
  cases hL : s.localWorker with
  | none => simp [updateWorkerProgress, aggregatedValues, ht, hL]
  | some lw =>
      have hnone := hlp lw hL
      simp [updateWorkerProgress, aggregatedValues, ht, hL, hnone]

/-- Closed instance of C6 (amended), reproducing the claim's own example:
two working peers whose last reported progress values are `1/5` and `3/5`
aggregate to `2/5` (the unweighted mean). -/
theorem C6_aggregate_mean_witness :
    (updateWorkerProgress
        ⟨"me", [], some ⟨"t1", some "x", 20, "processing", [], [], none, false⟩,
          [("p1", ⟨true, "working", some "chunk_0", 1/5⟩),
           ("p2", ⟨true, "working", some "chunk_1", 3/5⟩)],
          none, []⟩
        "p1" ⟨"t1", 1/5⟩).2
      = some ⟨"t1", 2/5⟩ := by
  rw [C6_aggregate_mean
    ⟨"me", [], some ⟨"t1", some "x", 20, "processing", [], [], none, false⟩,
      [("p1", ⟨true, "working", some "chunk_0", 1/5⟩),
       ("p2", ⟨true, "working", some "chunk_1", 3/5⟩)],
      none, []⟩
    "p1" ⟨"t1", 1/5⟩ rfl (by intro lw h; cases h)]
  simp [updateWorkerProgress, updateEntry, meanOrZero]
  norm_num

/-! ## Scheduler-state invariant and FIFO admission (claim C8) -/

theorem processNextTask_busy (s : CoordState) (c : Task)
    (hcur : s.currentTask = some c) : processNextTask s = (s, none) := by
  simp [processNextTask, hcur]

theorem processNextTask_empty (s : CoordState)
    (hcur : s.currentTask = none) (hq : s.queue = []) :
    processNextTask s = (s, none) := by
  simp [processNextTask, hcur, hq]

theorem processNextTask_summary (s : CoordState) (t0 : Task) (rest : List Task)
    (hcur : s.currentTask = none) (hq : s.queue = t0 :: rest)
    (hsum : t0.isSummary = true) :
    processNextTask s
      = ({ s with
            queue := rest,
            currentTask := some { t0 with status := "processing" } },
         some { t0 with status := "processing" }) := by
  simp [processNextTask, hcur, hq, hsum]

theorem processNextTask_local (s : CoordState) (t0 : Task) (rest : List Task)
    (hcur : s.currentTask = none) (hq : s.queue = t0 :: rest)
    (hsum : t0.isSummary = false)
    (hA : (getAvailableWorkers s).isEmpty = true) :
    processNextTask s
      = ({ s with
            queue := rest,
            currentTask := some { t0 with status := "processing" },
            localRuns := s.localRuns ++ [⟨t0.id, none, 0, t0.steps, 0⟩] },
         some { t0 with status := "processing" }) := by
  simp [processNextTask, hcur, hq, hsum, getAvailableWorkers_update, hA]

theorem processNextTask_distribute (s : CoordState) (t0 : Task) (rest : List Task)
    (hcur : s.currentTask = none) (hq : s.queue = t0 :: rest)
    (hsum : t0.isSummary = false)
    (hA : (getAvailableWorkers s).isEmpty = false) :
    processNextTask s
      = (distributeWork
            { s with
              queue := rest,
              currentTask := some { t0 with status := "processing" } }
            { t0 with status := "processing" } (getAvailableWorkers s),
         some { t0 with status := "processing" }) := by
  simp [processNextTask, hcur, hq, hsum, getAvailableWorkers_update, hA]

/-- Whatever `_distributeWork` does, it does not touch the pending queue,
and it makes the (chunk-filled) task the active one. -/
theorem distributeWork_queue (s : CoordState) (t : Task) (avail : List AvailWorker) :
    (distributeWork s t avail).queue = s.queue := rfl

theorem distributeWork_currentTask (s : CoordState) (t : Task)
    (avail : List AvailWorker) :
    (distributeWork s t avail).currentTask
      = some { t with chunks := mkChunks t.steps avail.length } := rfl

/-- A promotion always takes the head of the pending queue, gives it status
`processing`, and leaves exactly the tail pending. -/
theorem processNextTask_promoted (s : CoordState) (t : Task)
    (h : (processNextTask s).2 = some t) :
    ∃ t0 rest, s.queue = t0 :: rest ∧ t = { t0 with status := "processing" } ∧
      (processNextTask s).1.queue = rest := by
  cases hcur : s.currentTask with
  | some c => rw [processNextTask_busy s c hcur] at h; simp at h
  | none =>
      cases hq : s.queue with
      | nil => rw [processNextTask_empty s hcur hq] at h; simp at h
      | cons t0 rest =>
          refine ⟨t0, rest, rfl, ?_, ?_⟩
          all_goals
            by_cases hsum : t0.isSummary
          · rw [processNextTask_summary s t0 rest hcur hq hsum] at h
            simpa using h.symm
          · cases hA : (getAvailableWorkers s).isEmpty with
            | true =>
                rw [processNextTask_local s t0 rest hcur hq
                  (by simpa using hsum) hA] at h
                simpa using h.symm
            | false =>
                rw [processNextTask_distribute s t0 rest hcur hq
                  (by simpa using hsum) hA] at h
                simpa using h.symm
          · rw [processNextTask_summary s t0 rest hcur hq hsum]
          · cases hA : (getAvailableWorkers s).isEmpty with
            | true =>
                rw [processNextTask_local s t0 rest hcur hq
                  (by simpa using hsum) hA]
            | false =>
                rw [processNextTask_distribute s t0 rest hcur hq
                  (by simpa using hsum) hA]
                exact distributeWork_queue _ _ _

/-- Without a promotion, `_processNextTask` leaves the queue alone. -/
theorem processNextTask_queue_of_none (s : CoordState)
    (h : (processNextTask s).2 = none) :
    (processNextTask s).1.queue = s.queue := by
  cases hcur : s.currentTask with
  | some c => rw [processNextTask_busy s c hcur]
  | none =>
      cases hq : s.queue with
      | nil => rw [processNextTask_empty s hcur hq]; exact hq
      | cons t0 rest =>
          exfalso
          by_cases hsum : t0.isSummary
          · rw [processNextTask_summary s t0 rest hcur hq hsum] at h
            simp at h
          · cases hA : (getAvailableWorkers s).isEmpty with
            | true =>
                rw [processNextTask_local s t0 rest hcur hq
                  (by simpa using hsum) hA] at h
                simp at h
            | false =>
                rw [processNextTask_distribute s t0 rest hcur hq
                  (by simpa using hsum) hA] at h
                simp at h

/-! ### Branch equations for `_handleResult` and `localStep` -/

theorem handleResult_complete_eq (s : CoordState) (c : Task) (r : TResult)
    (now : Nat) (hcur : s.currentTask = some c) (hsum : c.isSummary = false)
    (hid : r.taskId = c.id)
    (hcond : countComplete (resultsSet c.results r.chunkId r) = c.chunks.length) :
    handleResult s r now
      = ((processNextTask { s with currentTask := none }).1,
         some { c with
                  results := resultsSet c.results r.chunkId r,
                  status := "complete",
                  completedAt := some now },
         (processNextTask { s with currentTask := none }).2) := by
  simp [handleResult, completeTask, hcur, hsum, hid, hcond]

theorem handleResult_record_eq (s : CoordState) (c : Task) (r : TResult)
    (now : Nat) (hcur : s.currentTask = some c) (hsum : c.isSummary = false)
    (hid : r.taskId = c.id)
    (hcond : countComplete (resultsSet c.results r.chunkId r) ≠ c.chunks.length) :
    handleResult s r now
      = ({ s with
            currentTask := some { c with results := resultsSet c.results r.chunkId r } },
         none, none) := by
  simp [handleResult, hcur, hsum, hid, hcond]

/-- Any promotion coming out of `_handleResult` takes the queue head. -/
theorem handleResult_promoted (s : CoordState) (r : TResult) (now : Nat) (t : Task)
    (h : (handleResult s r now).2.2 = some t) :
    ∃ t0 rest, s.queue = t0 :: rest ∧ t = { t0 with status := "processing" } ∧
      (handleResult s r now).1.queue = rest := by
  cases hcur : s.currentTask with
  | none => simp [handleResult, hcur] at h
  | some c =>
      by_cases hid : r.taskId = c.id
      · by_cases hsum : c.isSummary
        · simp [handleResult, hcur, hid, hsum] at h
        · by_cases hcond :
              countComplete (resultsSet c.results r.chunkId r) = c.chunks.length
          · rw [handleResult_complete_eq s c r now hcur
              (by simpa using hsum) hid hcond] at h ⊢
            exact processNextTask_promoted _ t h
          · rw [handleResult_record_eq s c r now hcur
              (by simpa using hsum) hid hcond] at h
            simp at h
      · simp [handleResult, hcur, hid] at h

/-- Without a promotion, `_handleResult` leaves the queue alone. -/
theorem handleResult_queue_of_none (s : CoordState) (r : TResult) (now : Nat)
    (h : (handleResult s r now).2.2 = none) :
    (handleResult s r now).1.queue = s.queue := by
  cases hcur : s.currentTask with
  | none => simp [handleResult, hcur]
  | some c =>
      by_cases hid : r.taskId = c.id
      · by_cases hsum : c.isSummary
        · simp [handleResult, hcur, hid, hsum]
        · by_cases hcond :
              countComplete (resultsSet c.results r.chunkId r) = c.chunks.length
          · rw [handleResult_complete_eq s c r now hcur
              (by simpa using hsum) hid hcond] at h ⊢
            exact processNextTask_queue_of_none _ h
          · rw [handleResult_record_eq s c r now hcur
              (by simpa using hsum) hid hcond]
      · simp [handleResult, hcur, hid]

theorem markIfActive_queue (s : CoordState) (a b : String) :
    (markIfActive s a b).queue = s.queue := by
  cases hcur : s.currentTask with
  | none => simp [markIfActive, hcur]
  | some t =>
      simp only [markIfActive, hcur]
      split <;> rfl

theorem localStep_none (s : CoordState) (i now : Nat)
    (hrun : s.localRuns[i]? = none) :
    localStep s i now = (s, none, none, none) := by
  simp [localStep, hrun]

theorem localStep_finished (s : CoordState) (i now : Nat) (run : LocalRun)
    (hrun : s.localRuns[i]? = some run)
    (hge : ¬ run.stepsDone < run.endStep - run.startStep) :
    localStep s i now = (s, none, none, none) := by
  simp [localStep, hrun, hge]

theorem localStep_mid (s : CoordState) (i now : Nat) (run : LocalRun)
    (hrun : s.localRuns[i]? = some run)
    (hlt : run.stepsDone < run.endStep - run.startStep)
    (hne : run.stepsDone + 1 ≠ run.endStep - run.startStep) :
    localStep s i now
      = ({ s with localRuns := s.localRuns.set i { run with stepsDone := run.stepsDone + 1 } },
         some ((run.stepsDone + 1 : ℚ) / ((run.endStep - run.startStep : Nat) : ℚ)),
         none, none) := by
  simp [localStep, hrun, hlt, hne]

theorem localStep_chunk_fin (s : CoordState) (i now : Nat) (run : LocalRun)
    (cid : String) (hrun : s.localRuns[i]? = some run)
    (hlt : run.stepsDone < run.endStep - run.startStep)
    (heq : run.stepsDone + 1 = run.endStep - run.startStep)
    (hcid : run.chunkId = some cid) :
    localStep s i now
      = ((handleResult
            (markIfActive
              { s with localRuns := s.localRuns.set i { run with stepsDone := run.stepsDone + 1 } }
              run.taskId cid)
            ⟨run.taskId, cid, s.selfId, "complete"⟩ now).1,
         some ((run.stepsDone + 1 : ℚ) / ((run.endStep - run.startStep : Nat) : ℚ)),
         (handleResult
            (markIfActive
              { s with localRuns := s.localRuns.set i { run with stepsDone := run.stepsDone + 1 } }
              run.taskId cid)
            ⟨run.taskId, cid, s.selfId, "complete"⟩ now).2.1,
         (handleResult
            (markIfActive
              { s with localRuns := s.localRuns.set i { run with stepsDone := run.stepsDone + 1 } }
              run.taskId cid)
            ⟨run.taskId, cid, s.selfId, "complete"⟩ now).2.2) := by
  simp [localStep, hrun, hlt, heq, hcid]
  rw [← heq]
  push_cast
  ring

theorem localStep_full_fin (s : CoordState) (i now : Nat) (run : LocalRun)
    (hrun : s.localRuns[i]? = some run)
    (hlt : run.stepsDone < run.endStep - run.startStep)
    (heq : run.stepsDone + 1 = run.endStep - run.startStep)
    (hcid : run.chunkId = none) :
    localStep s i now
      = ((processNextTask
            { s with
              localRuns := s.localRuns.set i { run with stepsDone := run.stepsDone + 1 },
              currentTask := none }).1,
         some ((run.stepsDone + 1 : ℚ) / ((run.endStep - run.startStep : Nat) : ℚ)),
         staleCompleted
            { s with localRuns := s.localRuns.set i { run with stepsDone := run.stepsDone + 1 } }
            run.taskId now,
         (processNextTask
            { s with
              localRuns := s.localRuns.set i { run with stepsDone := run.stepsDone + 1 },
              currentTask := none }).2) := by
  simp [localStep, hrun, hlt, heq, hcid]
  rw [← heq]
  push_cast
  ring

/-- Any promotion caused by a local compute step takes the queue head. -/
theorem localStep_promoted (s : CoordState) (i now : Nat) (t : Task)
    (h : (localStep s i now).2.2.2 = some t) :
    ∃ t0 rest, s.queue = t0 :: rest ∧ t = { t0 with status := "processing" } ∧
      (localStep s i now).1.queue = rest := by
  cases hrun : s.localRuns[i]? with
  | none => rw [localStep_none s i now hrun] at h; simp at h
  | some run =>
      by_cases hlt : run.stepsDone < run.endStep - run.startStep
      · by_cases heq : run.stepsDone + 1 = run.endStep - run.startStep
        · cases hcid : run.chunkId with
          | some cid =>
              rw [localStep_chunk_fin s i now run cid hrun hlt heq hcid] at h ⊢
              obtain ⟨t0, rest, hq, ht, hq'⟩ := handleResult_promoted _ _ _ _ h
              rw [markIfActive_queue] at hq
              exact ⟨t0, rest, hq, ht, hq'⟩
          | none =>
              rw [localStep_full_fin s i now run hrun hlt heq hcid] at h ⊢
              obtain ⟨t0, rest, hq, ht, hq'⟩ := processNextTask_promoted _ _ h
              exact ⟨t0, rest, hq, ht, hq'⟩
        · rw [localStep_mid s i now run hrun hlt heq] at h
          simp at h
      · rw [localStep_finished s i now run hrun hlt] at h
        simp at h

/-- Without a promotion, a local compute step leaves the queue alone. -/
theorem localStep_queue_of_none (s : CoordState) (i now : Nat)
    (h : (localStep s i now).2.2.2 = none) :
    (localStep s i now).1.queue = s.queue := by
  cases hrun : s.localRuns[i]? with
  | none => rw [localStep_none s i now hrun]
  | some run =>
      by_cases hlt : run.stepsDone < run.endStep - run.startStep
      · by_cases heq : run.stepsDone + 1 = run.endStep - run.startStep
        · cases hcid : run.chunkId with
          | some cid =>
              rw [localStep_chunk_fin s i now run cid hrun hlt heq hcid] at h ⊢
              have := handleResult_queue_of_none _ _ _ h
              rw [markIfActive_queue] at this
              exact this
          | none =>
              rw [localStep_full_fin s i now run hrun hlt heq hcid] at h ⊢
              exact processNextTask_queue_of_none _ h
        · rw [localStep_mid s i now run hrun hlt heq]
      · rw [localStep_finished s i now run hrun hlt]

/-! ### The scheduler invariant -/

/-- Every pending-queue entry has status `pending`; the active slot, when
occupied, has status `processing`. -/
def Inv (s : CoordState) : Prop :=
  (∀ t ∈ s.queue, t.status = "pending") ∧
  (∀ t, s.currentTask = some t → t.status = "processing")

theorem mergeFold_pending (proj : List TaskSummary) :
    ∀ q0 : List Task, (∀ t ∈ q0, t.status = "pending") → WFProj proj →
    ∀ t ∈ proj.foldl mergeStep q0, t.status = "pending" := by
  induction proj with
  | nil => intro q0 h _ t ht; exact h t ht
  | cons x xs ih =>
      intro q0 h hwf t ht
      simp only [List.foldl_cons] at ht
      refine ih (mergeStep q0 x) ?_
        (fun y hy => hwf y (List.mem_cons_of_mem _ hy)) t ht
      intro u hu
      by_cases hany : (q0.any fun v => v.id = x.id) = true
      · rw [show mergeStep q0 x = q0 from by simp [mergeStep, hany]] at hu
        exact h u hu
      · rw [show mergeStep q0 x = q0 ++ [summaryToTask x] from by
          simp [mergeStep, hany]] at hu
        rcases List.mem_append.mp hu with h1 | h2
        · exact h u h1
        · have : u = summaryToTask x := by simpa using h2
          rw [this]
          exact hwf x (List.mem_cons_self _ _)

theorem processNextTask_inv (s : CoordState)
    (h1 : ∀ t ∈ s.queue, t.status = "pending")
    (h2 : ∀ t, s.currentTask = some t → t.status = "processing") :
    (∀ t ∈ (processNextTask s).1.queue, t.status = "pending") ∧
    (∀ t, (processNextTask s).1.currentTask = some t → t.status = "processing") := by
  cases hcur : s.currentTask with
  | some c => rw [processNextTask_busy s c hcur]; exact ⟨h1, h2⟩
  | none =>
      cases hq : s.queue with
      | nil => rw [processNextTask_empty s hcur hq]; exact ⟨h1, h2⟩
      | cons t0 rest =>
          have hrest : ∀ t ∈ rest, t.status = "pending" := by
            intro t ht
            exact h1 t (by rw [hq]; exact List.mem_cons_of_mem _ ht)
          by_cases hsum : t0.isSummary
          · rw [processNextTask_summary s t0 rest hcur hq hsum]
            refine ⟨hrest, ?_⟩
            intro t ht
            simp only [Option.some_inj] at ht
            rw [← ht]
          · cases hA : (getAvailableWorkers s).isEmpty with
            | true =>
                rw [processNextTask_local s t0 rest hcur hq (by simpa using hsum) hA]
                refine ⟨hrest, ?_⟩
                intro t ht
                simp only [Option.some_inj] at ht
                rw [← ht]
            | false =>
                rw [processNextTask_distribute s t0 rest hcur hq
                  (by simpa using hsum) hA]
                refine ⟨?_, ?_⟩
                · rw [distributeWork_queue]
                  exact hrest
                · intro t ht
                  rw [distributeWork_currentTask] at ht
                  simp only [Option.some_inj] at ht
                  rw [← ht]

theorem handleResult_inv (s : CoordState) (r : TResult) (now : Nat)
    (h1 : ∀ t ∈ s.queue, t.status = "pending")
    (h2 : ∀ t, s.currentTask = some t → t.status = "processing") :
    (∀ t ∈ (handleResult s r now).1.queue, t.status = "pending") ∧
    (∀ t, (handleResult s r now).1.currentTask = some t →
        t.status = "processing") := by
  cases hcur : s.currentTask with
  | none =>
      simp only [handleResult, hcur]
      exact ⟨h1, fun t ht => by cases ht⟩
  | some c =>
      by_cases hid : r.taskId = c.id
      · by_cases hsum : c.isSummary
        · simp only [handleResult, hcur, if_pos hid, hsum, if_true]
          refine ⟨h1, ?_⟩
          intro t ht
          simp only [Option.some_inj] at ht
          rw [← ht]
          exact h2 c hcur
        · by_cases hcond :
              countComplete (resultsSet c.results r.chunkId r) = c.chunks.length
          · rw [handleResult_complete_eq s c r now hcur (by simpa using hsum) hid hcond]
            exact processNextTask_inv { s with currentTask := none } h1
              (by intro t ht; cases ht)
          · rw [handleResult_record_eq s c r now hcur (by simpa using hsum) hid hcond]
            refine ⟨h1, ?_⟩
            intro t ht
            simp only [Option.some_inj] at ht
            rw [← ht]
            exact h2 c hcur
      · simp only [handleResult, hcur, if_neg hid]
        refine ⟨h1, ?_⟩
        intro t ht
        simp only [Option.some_inj] at ht
        rw [← ht]
        exact h2 c hcur

theorem markIfActive_inv (s : CoordState) (a b : String)
    (h1 : ∀ t ∈ s.queue, t.status = "pending")
    (h2 : ∀ t, s.currentTask = some t → t.status = "processing") :
    (∀ t ∈ (markIfActive s a b).queue, t.status = "pending") ∧
    (∀ t, (markIfActive s a b).currentTask = some t →
        t.status = "processing") := by
  cases hcur : s.currentTask with
  | none =>
      simp only [markIfActive, hcur]
      exact ⟨h1, fun t ht => by cases ht⟩
  | some c =>
      simp only [markIfActive, hcur]
      split
      · refine ⟨h1, ?_⟩
        intro t ht
        simp only [Option.some_inj] at ht
        rw [← ht]
        exact h2 c hcur
      · exact ⟨h1, h2⟩

theorem localStep_inv (s : CoordState) (i now : Nat)
    (h1 : ∀ t ∈ s.queue, t.status = "pending")
    (h2 : ∀ t, s.currentTask = some t → t.status = "processing") :
    (∀ t ∈ (localStep s i now).1.queue, t.status = "pending") ∧
    (∀ t, (localStep s i now).1.currentTask = some t →
        t.status = "processing") := by
  cases hrun : s.localRuns[i]? with
  | none => rw [localStep_none s i now hrun]; exact ⟨h1, h2⟩
  | some run =>
      by_cases hlt : run.stepsDone < run.endStep - run.startStep
      · by_cases heq : run.stepsDone + 1 = run.endStep - run.startStep
        · cases hcid : run.chunkId with
          | some cid =>
              rw [localStep_chunk_fin s i now run cid hrun hlt heq hcid]
              have hm := markIfActive_inv
                { s with localRuns :=
                    s.localRuns.set i { run with stepsDone := run.stepsDone + 1 } }
                run.taskId cid h1 h2
              exact handleResult_inv _ _ _ hm.1 hm.2
          | none =>
              rw [localStep_full_fin s i now run hrun hlt heq hcid]
              exact processNextTask_inv
                { s with
                  localRuns := s.localRuns.set i { run with stepsDone := run.stepsDone + 1 },
                  currentTask := none }
                h1 (by intro t ht; cases ht)
        · rw [localStep_mid s i now run hrun hlt heq]
          exact ⟨h1, h2⟩
      · rw [localStep_finished s i now run hrun hlt]
        exact ⟨h1, h2⟩

/-- `_updateWorkerProgress` only mutates the sending peer's registry entry. -/
theorem updateWorkerProgress_state (s : CoordState) (p : String) (m : ProgressMsg) :
    (updateWorkerProgress s p m).1
      = { s with workers :=
            updateEntry s.workers p (fun w => { w with progress := m.progress }) } := by
  cases hcur : s.currentTask <;> simp [updateWorkerProgress, hcur]

/-- `_handleWorkerDisconnect` never touches the pending queue. -/
theorem handleWorkerDisconnect_queue (s : CoordState) (p : String) :
    (handleWorkerDisconnect s p).1.queue = s.queue := by
  cases hw : lookupEntry s.workers p with
  | none => simp [handleWorkerDisconnect, hw]
  | some w =>
      cases hcur : s.currentTask with
      | none => simp [handleWorkerDisconnect, hw, hcur]
      | some t =>
          cases hcc : w.currentChunk with
          | none => simp [handleWorkerDisconnect, hw, hcur, hcc]
          | some cid =>
              cases hfind : t.chunks.find? (fun c => c.id = cid) with
              | none => simp [handleWorkerDisconnect, hw, hcur, hcc, hfind]
              | some c =>
                  by_cases hnc : c.status ≠ "complete"
                  · cases hA : getAvailableWorkers s with
                    | nil =>
                        simp [handleWorkerDisconnect, hw, hcur, hcc, hfind, hnc, hA]
                    | cons nw rest =>
                        simp [handleWorkerDisconnect, hw, hcur, hcc, hfind, hnc, hA]
                  · simp [handleWorkerDisconnect, hw, hcur, hcc, hfind, hnc]

/-- The active slot after a departure: unchanged, or the same task with one
chunk set back to `pending` (its status field untouched). -/
theorem handleWorkerDisconnect_currentTask (s : CoordState) (p : String) :
    (handleWorkerDisconnect s p).1.currentTask = s.currentTask ∨
    (∃ t cid, s.currentTask = some t ∧
      (handleWorkerDisconnect s p).1.currentTask
        = some { t with chunks := t.chunks.map (fun ch =>
            if ch.id = cid then { ch with status := "pending" } else ch) }) := by
  cases hw : lookupEntry s.workers p with
  | none => left; simp [handleWorkerDisconnect, hw]
  | some w =>
      cases hcur : s.currentTask with
      | none => left; simp [handleWorkerDisconnect, hw, hcur]
      | some t =>
          cases hcc : w.currentChunk with
          | none => left; simp [handleWorkerDisconnect, hw, hcur, hcc]
          | some cid =>
              cases hfind : t.chunks.find? (fun c => c.id = cid) with
              | none => left; simp [handleWorkerDisconnect, hw, hcur, hcc, hfind]
              | some c =>
                  by_cases hnc : c.status ≠ "complete"
                  · right
                    refine ⟨t, cid, rfl, ?_⟩
                    cases hA : getAvailableWorkers s with
                    | nil =>
                        simp [handleWorkerDisconnect, hw, hcur, hcc, hfind, hnc, hA]
                    | cons nw rest =>
                        simp [handleWorkerDisconnect, hw, hcur, hcc, hfind, hnc, hA]
                  · left; simp [handleWorkerDisconnect, hw, hcur, hcc, hfind, hnc]

/-- Single-event preservation of the scheduler invariant. -/
theorem inv_step (s : CoordState) (e : Event) (hwf : WFEvent e) (h : Inv s) :
    Inv (step s e) := by
  obtain ⟨h1, h2⟩ := h
  cases e with
  | add id prompt stepsOpt =>
      have h1' : ∀ t ∈ s.queue ++ [mkTask id prompt stepsOpt],
          t.status = "pending" := by
        intro t ht
        rcases List.mem_append.mp ht with hl | hr
        · exact h1 t hl
        · have : t = mkTask id prompt stepsOpt := by simpa using hr
          rw [this]
          rfl
      exact processNextTask_inv { s with queue := s.queue ++ [mkTask id prompt stepsOpt] }
        h1' h2
  | sync proj =>
      refine ⟨?_, h2⟩
      exact mergeFold_pending proj s.queue h1 hwf
  | result r now => exact handleResult_inv s r now h1 h2
  | progress p m =>
      constructor
      · intro t ht
        rw [step, stepP, updateWorkerProgress_state] at ht
        exact h1 t ht
      · intro t ht
        rw [step, stepP, updateWorkerProgress_state] at ht
        exact h2 t ht
  | disconnect p =>
      constructor
      · intro t ht
        rw [step, stepP, handleWorkerDisconnect_queue] at ht
        exact h1 t ht
      · intro t ht
        rcases handleWorkerDisconnect_currentTask s p with hsame | ⟨u, cid, hu, hres⟩
        · rw [step, stepP, hsame] at ht
          exact h2 t ht
        · rw [step, stepP, hres] at ht
          simp only [Option.some_inj] at ht
          rw [← ht]
          exact h2 u hu
  | caps p g => exact ⟨h1, h2⟩
  | setLocal g => exact ⟨h1, h2⟩
  | localStep i now => exact localStep_inv s i now h1 h2

/-- Every reachable coordinator state satisfies the scheduler invariant. -/
theorem inv_reachable (s : CoordState) (h : Reachable s) : Inv s := by
  induction h with
  | init selfId =>
      constructor
      · intro t ht
        cases ht
      · intro t ht
        cases ht
  | step e hs hwf ih => exact inv_step _ e hwf ih

/-- The number of job records with status `processing` held by the
coordinator (pending queue plus the active slot). -/
def processingCount (s : CoordState) : Nat :=
  ((s.queue ++ s.currentTask.toList).filter
    (fun t => t.status = "processing")).length

/-- The task an event admits to the queue, if any. -/
def admitted (e : Event) : List Task :=
  match e with
  | .add id prompt stepsOpt => [mkTask id prompt stepsOpt]
  | _ => []

/-- C8: in every state reachable by any sequence of admissions, in-protocol
remote projections, progress events, results, departures (and local compute
steps), at most one job record has status `processing`; and admission to
processing is strictly FIFO: whenever an event promotes a job into the
active slot, that job is the head of the pending queue (after any task the
event itself admitted at the tail), and exactly that head is removed.  When
no promotion happens, an event can only append to the queue's tail. -/
theorem C8_single_active_fifo (s : CoordState) (h : Reachable s) :
    processingCount s ≤ 1 ∧
    (∀ e t, (stepP s e).2 = some t →
      ∃ t0 rest, s.queue ++ admitted e = t0 :: rest ∧
        t = { t0 with status := "processing" } ∧ (stepP s e).1.queue = rest) ∧
    (∀ e, (stepP s e).2 = none →
      ∃ app, (stepP s e).1.queue = s.queue ++ app) := by
  obtain ⟨h1, h2⟩ := inv_reachable s h
  refine ⟨?_, ?_, ?_⟩
  · have hq : s.queue.filter (fun t => decide (t.status = "processing")) = [] := by
      rw [List.filter_eq_nil_iff]
      intro t ht
      simp [h1 t ht]
    simp only [processingCount, List.filter_append, hq, List.nil_append]
    cases hcur : s.currentTask with
    | none => simp
    | some c =>
        simp only [Option.toList_some, List.filter]
        split <;> simp
  · intro e t ht
    cases e with
    | add id prompt stepsOpt =>
        exact processNextTask_promoted
          { s with queue := s.queue ++ [mkTask id prompt stepsOpt] } t ht
    | sync proj => simp [stepP] at ht
    | result r now =>
        obtain ⟨t0, rest, hq, hteq, hq'⟩ := handleResult_promoted s r now t ht
        refine ⟨t0, rest, ?_, hteq, hq'⟩
        simpa [admitted] using hq
    | progress p m => simp [stepP] at ht
    | disconnect p => simp [stepP] at ht
    | caps p g => simp [stepP] at ht
    | setLocal g => simp [stepP] at ht
    | localStep i now =>
        obtain ⟨t0, rest, hq, hteq, hq'⟩ := localStep_promoted s i now t ht
        refine ⟨t0, rest, ?_, hteq, hq'⟩
        simpa [admitted] using hq
  · intro e hnone
    cases e with
    | add id prompt stepsOpt =>
        exact ⟨[mkTask id prompt stepsOpt],
          processNextTask_queue_of_none
            { s with queue := s.queue ++ [mkTask id prompt stepsOpt] } hnone⟩
    | sync proj => exact mergeFold_addOnly proj s.queue
    | result r now =>
        refine ⟨[], ?_⟩
        simpa using handleResult_queue_of_none s r now hnone
    | progress p m =>
        refine ⟨[], ?_⟩
        simp [step, stepP, updateWorkerProgress_state]
    | disconnect p =>
        refine ⟨[], ?_⟩
        simpa using handleWorkerDisconnect_queue s p
    | caps p g =>
        refine ⟨[], ?_⟩
        simp [stepP, handleCapabilities]
    | setLocal g =>
        refine ⟨[], ?_⟩
        simp [stepP, setLocalCapabilities]
    | localStep i now =>
        refine ⟨[], ?_⟩
        simpa using localStep_queue_of_none s i now hnone

/-- Closed instance of C8 at a reachable state: after one admission the
coordinator holds exactly one processing job. -/
theorem C8_single_active_fifo_witness :
    processingCount (step (initState "me") (Event.add "t1" (some "p") (some 20)))
      ≤ 1 :=
  (C8_single_active_fifo _
    (Reachable.step (Event.add "t1" (some "p") (some 20))
      (Reachable.init "me") trivial)).1

end Coord
